import Mathlib

/-!
Verification of the doctown-v3 incremental build engine specification against
the repository sources.  The persisted data model (tables `jobs`, `docpacks`,
`repo_branches`, `job_logs`, `symbol_edits`, `auto_update_log`) is embedded from
the SQL schema files under the repository root; the operational components
(Job Controller, Branch Watcher, Symbol Diff Engine, Lineage Store, Build Log
Stream), whose TypeScript/Rust implementations are not part of the provided
sources, are modelled from the specification text and marked as such in their
doc comments.
-/

set_option maxHeartbeats 1000000

namespace Doctown

/-! ## Symbol Diff Engine (spec section 4.3) -/

/-- Modelled from the spec: a symbol table of one commit, an association of
symbol id to content fingerprint, as supplied by the extractor.  The Symbol
Diff Engine implementation is not under the provided sources. -/
abbrev SymMap := List (String × String)

/-- Modelled from the spec: identity-keyed lookup of a fingerprint. -/
def lookupFp : SymMap → String → Option String
  | [], _ => none
  | (i, f) :: rest, j => if i = j then some f else lookupFp rest j

/-- The list of symbol ids of a symbol table. -/
def symIds (m : SymMap) : List String := m.map Prod.fst

/-- Modelled from the spec: Added ids, i.e. ids present in the current set `C`
and absent from the previous set `P`. -/
def addedIds (P C : SymMap) : List String :=
  (symIds C).filter fun i => (lookupFp P i).isNone

/-- Modelled from the spec: Removed ids, i.e. ids present in `P` and absent
from `C`. -/
def removedIds (P C : SymMap) : List String :=
  (symIds P).filter fun i => (lookupFp C i).isNone

/-- Modelled from the spec: Unchanged ids, present in both with equal
fingerprints. -/
def unchangedIds (P C : SymMap) : List String :=
  (symIds C).filter fun i =>
    (lookupFp P i).isSome && decide (lookupFp P i = lookupFp C i)

/-- Modelled from the spec: Modified ids, present in both with differing
fingerprints. -/
def modifiedIds (P C : SymMap) : List String :=
  (symIds C).filter fun i =>
    (lookupFp P i).isSome && decide (lookupFp P i ≠ lookupFp C i)

theorem lookupFp_isSome_iff_mem {m : SymMap} {i : String} :
    (lookupFp m i).isSome = true ↔ i ∈ symIds m := by
  induction m with
  | nil => simp [lookupFp, symIds]
  | cons kv rest ih =>
    obtain ⟨k, v⟩ := kv
    simp only [lookupFp, symIds, List.map_cons, List.mem_cons]
    by_cases h : k = i
    · subst h
      simp
    · rw [if_neg h]
      simp only [symIds] at ih
      rw [ih]
      constructor
      · exact fun hm => Or.inr hm
      · rintro (rfl | hm)
        · exact absurd rfl h
        · exact hm

theorem lookupFp_eq_none_iff_not_mem {m : SymMap} {i : String} :
    lookupFp m i = none ↔ i ∉ symIds m := by
  rw [← Option.not_isSome_iff_eq_none]
  exact not_congr lookupFp_isSome_iff_mem

theorem mem_symIds_exists_fp {m : SymMap} {i : String} (h : i ∈ symIds m) :
    ∃ f, lookupFp m i = some f := by
  have := lookupFp_isSome_iff_mem.mpr h
  exact Option.isSome_iff_exists.mp this

theorem mem_addedIds_iff {P C : SymMap} {i : String} :
    i ∈ addedIds P C ↔ i ∈ symIds C ∧ i ∉ symIds P := by
  simp only [addedIds, List.mem_filter, Option.isNone_iff_eq_none,
    lookupFp_eq_none_iff_not_mem]

theorem mem_removedIds_iff {P C : SymMap} {i : String} :
    i ∈ removedIds P C ↔ i ∈ symIds P ∧ i ∉ symIds C := by
  simp only [removedIds, List.mem_filter, Option.isNone_iff_eq_none,
    lookupFp_eq_none_iff_not_mem]

theorem mem_unchangedIds_iff {P C : SymMap} {i : String} :
    i ∈ unchangedIds P C ↔
      i ∈ symIds P ∧ i ∈ symIds C ∧ lookupFp P i = lookupFp C i := by
  simp only [unchangedIds, List.mem_filter, Bool.and_eq_true, decide_eq_true_eq,
    lookupFp_isSome_iff_mem]
  tauto

theorem mem_modifiedIds_iff {P C : SymMap} {i : String} :
    i ∈ modifiedIds P C ↔
      i ∈ symIds P ∧ i ∈ symIds C ∧ lookupFp P i ≠ lookupFp C i := by
  simp only [modifiedIds, List.mem_filter, Bool.and_eq_true, decide_eq_true_eq,
    lookupFp_isSome_iff_mem]
  tauto

/-- C2: the diff classifies every id into exactly one of the four sets: Added
iff the id is in `C` and not in `P`; Removed iff in `P` and not in `C`;
Unchanged iff in both with equal fingerprints; Modified iff in both with
differing fingerprints.  When `P` and `C` have disjoint id sets the diff yields
exactly as many Removed as `P` has entries, as many Added as `C` has entries,
and no Unchanged or Modified ids. -/
theorem C2_diff_partition (P C : SymMap) (i : String) :
    (i ∈ addedIds P C ↔ i ∈ symIds C ∧ i ∉ symIds P) ∧
    (i ∈ removedIds P C ↔ i ∈ symIds P ∧ i ∉ symIds C) ∧
    (i ∈ unchangedIds P C ↔
      i ∈ symIds P ∧ i ∈ symIds C ∧ lookupFp P i = lookupFp C i) ∧
    (i ∈ modifiedIds P C ↔
      i ∈ symIds P ∧ i ∈ symIds C ∧ lookupFp P i ≠ lookupFp C i) ∧
    ((i ∈ symIds P ∨ i ∈ symIds C) →
      i ∈ addedIds P C ∨ i ∈ removedIds P C ∨
        i ∈ unchangedIds P C ∨ i ∈ modifiedIds P C) ∧
    (¬(i ∈ addedIds P C ∧ i ∈ removedIds P C)) ∧
    (¬(i ∈ addedIds P C ∧ i ∈ unchangedIds P C)) ∧
    (¬(i ∈ addedIds P C ∧ i ∈ modifiedIds P C)) ∧
    (¬(i ∈ removedIds P C ∧ i ∈ unchangedIds P C)) ∧
    (¬(i ∈ removedIds P C ∧ i ∈ modifiedIds P C)) ∧
    (¬(i ∈ unchangedIds P C ∧ i ∈ modifiedIds P C)) ∧
    (List.Disjoint (symIds P) (symIds C) →
      (removedIds P C).length = P.length ∧ (addedIds P C).length = C.length ∧
      unchangedIds P C = [] ∧ modifiedIds P C = []) := by
  refine ⟨mem_addedIds_iff, mem_removedIds_iff, mem_unchangedIds_iff,
    mem_modifiedIds_iff, ?_, ?_, ?_, ?_, ?_, ?_, ?_, ?_⟩
  · intro hmem
    by_cases hP : i ∈ symIds P
    · by_cases hC : i ∈ symIds C
      · by_cases he : lookupFp P i = lookupFp C i
        · exact Or.inr (Or.inr (Or.inl (mem_unchangedIds_iff.mpr ⟨hP, hC, he⟩)))
        · exact Or.inr (Or.inr (Or.inr (mem_modifiedIds_iff.mpr ⟨hP, hC, he⟩)))
      · exact Or.inr (Or.inl (mem_removedIds_iff.mpr ⟨hP, hC⟩))
    · rcases hmem with h | h
      · exact absurd h hP
      · exact Or.inl (mem_addedIds_iff.mpr ⟨h, hP⟩)
  · rw [mem_addedIds_iff, mem_removedIds_iff]; tauto
  · rw [mem_addedIds_iff, mem_unchangedIds_iff]; tauto
  · rw [mem_addedIds_iff, mem_modifiedIds_iff]; tauto
  · rw [mem_removedIds_iff, mem_unchangedIds_iff]; tauto
  · rw [mem_removedIds_iff, mem_modifiedIds_iff]; tauto
  · rw [mem_unchangedIds_iff, mem_modifiedIds_iff]; tauto
  · intro hd
    have hrem : removedIds P C = symIds P := by
      apply List.filter_eq_self.mpr
      intro a ha
      have hnc : a ∉ symIds C := fun hc => hd ha hc
      simp only [Option.isNone_iff_eq_none, lookupFp_eq_none_iff_not_mem]
      exact hnc
    have hadd : addedIds P C = symIds C := by
      apply List.filter_eq_self.mpr
      intro a ha
      have hnp : a ∉ symIds P := fun hp => hd hp ha
      simp only [Option.isNone_iff_eq_none, lookupFp_eq_none_iff_not_mem]
      exact hnp
    refine ⟨?_, ?_, ?_, ?_⟩
    · rw [hrem]; simp [symIds]
    · rw [hadd]; simp [symIds]
    · apply List.filter_eq_nil_iff.mpr
      intro a ha
      have hnp : a ∉ symIds P := fun hp => hd hp ha
      simp only [Bool.and_eq_true, decide_eq_true_eq, lookupFp_isSome_iff_mem]
      tauto
    · apply List.filter_eq_nil_iff.mpr
      intro a ha
      have hnp : a ∉ symIds P := fun hp => hd hp ha
      simp only [Bool.and_eq_true, decide_eq_true_eq, lookupFp_isSome_iff_mem]
      tauto

/-- Witness for C2: on the concrete disjoint tables with one previous and one
current symbol, the diff yields one Removed, one Added, and no Unchanged or
Modified ids. -/
theorem C2_diff_partition_witness :
    List.Disjoint (symIds [("p1", "f1")]) (symIds [("c1", "f2")]) ∧
    ((removedIds [("p1", "f1")] [("c1", "f2")]).length = 1 ∧
      (addedIds [("p1", "f1")] [("c1", "f2")]).length = 1 ∧
      unchangedIds [("p1", "f1")] [("c1", "f2")] = [] ∧
      modifiedIds [("p1", "f1")] [("c1", "f2")] = []) := by
  have hd : List.Disjoint (symIds [("p1", "f1")]) (symIds [("c1", "f2")]) := by
    intro a ha hb
    simp [symIds] at ha hb
    rw [ha] at hb
    exact absurd hb (by decide)
  exact ⟨hd,
    (C2_diff_partition [("p1", "f1")] [("c1", "f2")] "p1").2.2.2.2.2.2.2.2.2.2.2 hd⟩

/-! ## Build statistics and cache hit rate (spec section 4.4, auto_update_log) -/

/-- Per-build symbol statistics, embedding the count columns
symbols_unchanged, symbols_modified, symbols_added and symbols_removed of the
auto_update_log table of src/supabase-migrations/add_auto_update_schema.sql. -/
structure VersionStats where
  symbols_unchanged : Nat
  symbols_modified : Nat
  symbols_added : Nat
  symbols_removed : Nat
deriving DecidableEq

/-- Modelled from the spec: the cache_hit_rate recorded for a build is the
Unchanged count divided by the Unchanged plus Modified plus Added counts.  The
code computing the value stored in auto_update_log.cache_hit_rate is not under
the provided sources; the REAL column is modelled as a rational. -/
def cache_hit_rate (st : VersionStats) : ℚ :=
  (st.symbols_unchanged : ℚ) /
    ((st.symbols_unchanged : ℚ) + (st.symbols_modified : ℚ) +
      (st.symbols_added : ℚ))

/-- The statistics produced by the Symbol Diff Engine for one build. -/
def diffStats (P C : SymMap) : VersionStats :=
  ⟨(unchangedIds P C).length, (modifiedIds P C).length,
    (addedIds P C).length, (removedIds P C).length⟩

/-- C3: the recorded cache_hit_rate equals the Unchanged count divided by the
Unchanged plus Modified plus Added counts; the Removed count does not enter the
denominator (changing it never changes the rate); and the value lies in the
closed interval from 0 to 1. -/
theorem C3_cache_hit_rate (st : VersionStats) :
    cache_hit_rate st =
      (st.symbols_unchanged : ℚ) /
        ((st.symbols_unchanged : ℚ) + (st.symbols_modified : ℚ) +
          (st.symbols_added : ℚ)) ∧
    (∀ r : Nat, cache_hit_rate
        ⟨st.symbols_unchanged, st.symbols_modified, st.symbols_added, r⟩ =
      cache_hit_rate st) ∧
    (∀ P C : SymMap, cache_hit_rate (diffStats P C) =
      ((unchangedIds P C).length : ℚ) /
        (((unchangedIds P C).length : ℚ) + ((modifiedIds P C).length : ℚ) +
          ((addedIds P C).length : ℚ))) ∧
    0 ≤ cache_hit_rate st ∧ cache_hit_rate st ≤ 1 := by
  have hu : (0:ℚ) ≤ (st.symbols_unchanged : ℚ) := Nat.cast_nonneg _
  have hm : (0:ℚ) ≤ (st.symbols_modified : ℚ) := Nat.cast_nonneg _
  have ha : (0:ℚ) ≤ (st.symbols_added : ℚ) := Nat.cast_nonneg _
  refine ⟨rfl, fun r => rfl, fun P C => rfl, ?_, ?_⟩
  · exact div_nonneg hu (by linarith)
  · unfold cache_hit_rate
    by_cases h : (st.symbols_unchanged : ℚ) + (st.symbols_modified : ℚ) +
        (st.symbols_added : ℚ) = 0
    · have hz : (st.symbols_unchanged : ℚ) = 0 := by linarith
      rw [h, hz]
      norm_num
    · have hpos : (0:ℚ) < (st.symbols_unchanged : ℚ) +
          (st.symbols_modified : ℚ) + (st.symbols_added : ℚ) :=
        lt_of_le_of_ne (by linarith) (Ne.symm h)
      rw [div_le_one hpos]
      linarith

/-! ## Job Controller, Branch Watcher and engine state
(spec sections 4.1 and 4.2; tables jobs, docpacks, repo_branches of
src/supabase-schema.sql) -/

/-- Job status, embedding the CHECK constraint of the jobs table:
status IN (pending, building, completed, failed). -/
inductive JobStatus
  | pending
  | building
  | completed
  | failed
deriving DecidableEq

/-- A job is active when it is Pending or Building. -/
def JobStatus.isActive : JobStatus → Bool
  | .pending => true
  | .building => true
  | _ => false

/-- A job status is terminal when it is Completed or Failed. -/
def JobStatus.isTerminal : JobStatus → Bool
  | .completed => true
  | .failed => true
  | _ => false

/-- A row of the jobs table (columns id, repo, git_ref split into branch and
commit, status, error_message); the user and timestamp columns play no role in
the claims. -/
structure Job where
  jid : Nat
  repo : String
  branch : String
  commit : String
  status : JobStatus
  error_message : Option String
deriving DecidableEq

/-- One immutable completed-build record, embedding the docpack columns
together with the auto_update_log statistics. -/
structure DocpackVersion where
  vid : Nat
  repo : String
  branch : String
  parent_version_id : Option Nat
  commit : String
  stats : VersionStats
deriving DecidableEq

/-- The persisted state touched by the build engine: the jobs table, the
version records, and the repo_branches rows mapping (repo, branch) to
last_seen_commit. -/
structure EngineState where
  jobs : List Job
  versions : List DocpackVersion
  branch_seen : List ((String × String) × String)
  nextJobId : Nat
  nextVersionId : Nat
deriving DecidableEq

/-- Whether a job row is an active job of the given (repository, branch). -/
def activePred (repo branch : String) (j : Job) : Bool :=
  j.repo == repo && j.branch == branch && j.status.isActive

/-- Whether an active (Pending or Building) job exists for the branch. -/
def hasActiveJob (s : EngineState) (repo branch : String) : Bool :=
  s.jobs.any (activePred repo branch)

/-- The number of active jobs for one (repository, branch). -/
def activeCount (s : EngineState) (repo branch : String) : Nat :=
  s.jobs.countP (activePred repo branch)

/-- The single-active-build invariant of spec section 3: at most one job in
Pending or Building per (repository, branch). -/
def SingleActive (s : EngineState) : Prop :=
  ∀ repo branch, activeCount s repo branch ≤ 1

/-- Result of enqueue: a fresh job id, or the AlreadyBuilding conflict. -/
inductive EnqueueResult
  | jobId (n : Nat)
  | alreadyBuilding
deriving DecidableEq

/-- Modelled from the spec: Job Controller enqueue (section 4.1; the
TypeScript job-creation endpoint is not under the provided sources).  It fails
with AlreadyBuilding when an active job exists for the branch, unless forced;
otherwise it creates one Pending job row. -/
def enqueue (s : EngineState) (repo branch commit : String) (forced : Bool) :
    EnqueueResult × EngineState :=
  if !forced && hasActiveJob s repo branch then
    (.alreadyBuilding, s)
  else
    (.jobId s.nextJobId,
      { s with
        jobs := s.jobs ++ [⟨s.nextJobId, repo, branch, commit, .pending, none⟩],
        nextJobId := s.nextJobId + 1 })

/-- One guarded status transition on a single jobs row: the row moves from
status src to status tgt (with the given error message) only when it is the
addressed job and currently has status src; every other row is unchanged. -/
def stepJob (jobId : Nat) (src tgt : JobStatus) (err : Option String)
    (j : Job) : Job :=
  if j.jid = jobId ∧ j.status = src then
    { j with status := tgt, error_message := err }
  else j

/-- Modelled from the spec: Job Controller start, transitioning
Pending to Building (section 4.1). -/
def start (s : EngineState) (jobId : Nat) : EngineState :=
  { s with jobs := s.jobs.map (stepJob jobId .pending .building none) }

/-- Modelled from the spec: Job Controller complete, transitioning Building to
Completed and appending one DocpackVersion (section 4.1). -/
def complete (s : EngineState) (jobId : Nat) (parent : Option Nat)
    (st : VersionStats) : EngineState :=
  match s.jobs.find? (fun j => j.jid == jobId) with
  | none => s
  | some j =>
    if j.status = .building then
      { s with
        jobs := s.jobs.map (stepJob jobId .building .completed none),
        versions := s.versions ++
          [⟨s.nextVersionId, j.repo, j.branch, parent, j.commit, st⟩],
        nextVersionId := s.nextVersionId + 1 }
    else s

/-- Modelled from the spec: Job Controller fail, transitioning Building to
Failed with the failure reason and writing no DocpackVersion (section 4.1). -/
def fail (s : EngineState) (jobId : Nat) (reason : String) : EngineState :=
  { s with jobs := s.jobs.map (stepJob jobId .building .failed (some reason)) }

/-- Lookup of last_seen_commit in the repo_branches rows. -/
def lookupSeen : List ((String × String) × String) → String × String →
    Option String
  | [], _ => none
  | (k, v) :: rest, key => if k = key then some v else lookupSeen rest key

/-- Upsert of last_seen_commit in the repo_branches rows (the table has
PRIMARY KEY (repo_full_name, branch)). -/
def setSeen : List ((String × String) × String) → String × String → String →
    List ((String × String) × String)
  | [], key, c => [(key, c)]
  | (k, v) :: rest, key, c =>
    if k = key then (k, c) :: rest else (k, v) :: setSeen rest key c

/-- Advance last_seen_commit of one (repository, branch) in the state. -/
def setSeenState (s : EngineState) (repo branch observed : String) :
    EngineState :=
  { s with branch_seen := setSeen s.branch_seen (repo, branch) observed }

/-- Modelled from the spec: one Branch Watcher evaluation cycle for a tracked
branch that observes commit observed (section 4.2; the watcher implementation
is not under the provided sources).  On a mismatch with last_seen_commit it
enqueues a build unless the lineage is frozen; last_seen_commit is advanced
unconditionally at the end of the cycle. -/
def watchCycle (s : EngineState) (repo branch observed : String)
    (frozen : Bool) : EngineState :=
  setSeenState
    (if lookupSeen s.branch_seen (repo, branch) ≠ some observed ∧
        frozen = false then
      (enqueue s repo branch observed false).2
    else s)
    repo branch observed

/-- The operations of the build engine that touch the persisted state. -/
inductive Op
  | opEnqueue (repo branch commit : String) (forced : Bool)
  | opStart (jobId : Nat)
  | opComplete (jobId : Nat) (parent : Option Nat) (st : VersionStats)
  | opFail (jobId : Nat) (reason : String)
  | opWatch (repo branch observed : String) (frozen : Bool)
deriving DecidableEq

/-- Application of one operation to the engine state. -/
def applyOp (s : EngineState) : Op → EngineState
  | .opEnqueue r b c f => (enqueue s r b c f).2
  | .opStart j => start s j
  | .opComplete j p st => complete s j p st
  | .opFail j r => fail s j r
  | .opWatch r b o f => watchCycle s r b o f

/-- Sequential execution of a list of operations. -/
def runOps (s : EngineState) : List Op → EngineState
  | [] => s
  | op :: ops => runOps (applyOp s op) ops

/-- An operation is unforced when it is not a forced enqueue. -/
def Op.unforced : Op → Prop
  | .opEnqueue _ _ _ forced => forced = false
  | _ => True

/-- The engine state with no rows at all. -/
def emptyState : EngineState := ⟨[], [], [], 0, 0⟩

theorem countP_map_le_of_imp {α : Type} (f : α → α) (p : α → Bool)
    (h : ∀ a, p (f a) = true → p a = true) (l : List α) :
    (l.map f).countP p ≤ l.countP p := by
  induction l with
  | nil => simp
  | cons a l ih =>
    simp only [List.map_cons, List.countP_cons]
    have hle : (if p (f a) then 1 else 0) ≤ (if p a then 1 else 0) := by
      by_cases hfa : p (f a) = true
      · rw [if_pos hfa, if_pos (h a hfa)]
      · rw [if_neg hfa]
        exact Nat.zero_le _
    exact Nat.add_le_add ih hle

theorem activePred_stepJob_imp {r b : String} {jobId : Nat}
    {src tgt : JobStatus} {err : Option String}
    (hsrc : src.isActive = true) (j : Job)
    (h : activePred r b (stepJob jobId src tgt err j) = true) :
    activePred r b j = true := by
  unfold stepJob at h
  by_cases hc : j.jid = jobId ∧ j.status = src
  · rw [if_pos hc] at h
    simp only [activePred, Bool.and_eq_true] at h ⊢
    refine ⟨⟨h.1.1, h.1.2⟩, ?_⟩
    rw [hc.2]
    exact hsrc
  · rw [if_neg hc] at h
    exact h

theorem countP_active_map_step_le (jobs : List Job) (r b : String)
    {jobId : Nat} {src tgt : JobStatus} {err : Option String}
    (hsrc : src.isActive = true) :
    (jobs.map (stepJob jobId src tgt err)).countP (activePred r b) ≤
      jobs.countP (activePred r b) :=
  countP_map_le_of_imp _ _ (fun j h => activePred_stepJob_imp hsrc j h) jobs

theorem enqueue_of_active {s : EngineState} {repo branch commit : String}
    (h : hasActiveJob s repo branch = true) :
    enqueue s repo branch commit false = (.alreadyBuilding, s) := by
  unfold enqueue
  rw [h]
  rfl

theorem enqueue_of_not_active {s : EngineState}
    {repo branch commit : String} {forced : Bool}
    (h : hasActiveJob s repo branch = false) :
    enqueue s repo branch commit forced =
      (.jobId s.nextJobId,
        { s with
          jobs := s.jobs ++
            [⟨s.nextJobId, repo, branch, commit, .pending, none⟩],
          nextJobId := s.nextJobId + 1 }) := by
  unfold enqueue
  rw [h]
  cases forced <;> rfl

theorem enqueue_forced (s : EngineState) (repo branch commit : String) :
    enqueue s repo branch commit true =
      (.jobId s.nextJobId,
        { s with
          jobs := s.jobs ++
            [⟨s.nextJobId, repo, branch, commit, .pending, none⟩],
          nextJobId := s.nextJobId + 1 }) := by
  unfold enqueue
  rfl

theorem single_active_enqueue_unforced {s : EngineState} (hs : SingleActive s)
    (repo branch commit : String) :
    SingleActive (enqueue s repo branch commit false).2 := by
  cases hq : hasActiveJob s repo branch
  · rw [enqueue_of_not_active hq]
    intro r b
    show (s.jobs ++
        [(⟨s.nextJobId, repo, branch, commit, .pending, none⟩ : Job)]).countP
      (activePred r b) ≤ 1
    rw [List.countP_append]
    by_cases hr : r = repo ∧ b = branch
    · obtain ⟨rfl, rfl⟩ := hr
      have h0 : s.jobs.countP (activePred r b) = 0 := by
        rw [List.countP_eq_zero]
        intro a ha hpa
        exact (List.any_eq_false.mp hq a ha) hpa
      rw [h0]
      have h1 : ([(⟨s.nextJobId, r, b, commit, .pending, none⟩ : Job)]).countP
          (activePred r b) ≤ 1 := by
        rw [List.countP_cons, List.countP_nil]
        split <;> omega
      omega
    · have hpred : activePred r b
          (⟨s.nextJobId, repo, branch, commit, .pending, none⟩ : Job) =
            false := by
        rcases Bool.eq_false_or_eq_true
            (activePred r b
              (⟨s.nextJobId, repo, branch, commit, .pending, none⟩ : Job))
          with h | h
        · exfalso
          simp only [activePred, Bool.and_eq_true, beq_iff_eq] at h
          exact hr ⟨h.1.1.symm, h.1.2.symm⟩
        · exact h
      rw [List.countP_cons, List.countP_nil, if_neg]
      · have := hs r b
        unfold activeCount at this
        omega
      · rw [hpred]
        simp
  · rw [enqueue_of_active hq]
    exact hs

theorem countP_singleton_le_one {α : Type} (p : α → Bool) (x : α) :
    List.countP p [x] ≤ 1 := by
  rw [List.countP_cons, List.countP_nil]
  split <;> omega

theorem single_active_start {s : EngineState} (hs : SingleActive s)
    (jobId : Nat) : SingleActive (start s jobId) := fun r b =>
  le_trans (countP_active_map_step_le s.jobs r b rfl) (hs r b)

theorem single_active_fail {s : EngineState} (hs : SingleActive s)
    (jobId : Nat) (reason : String) :
    SingleActive (fail s jobId reason) := fun r b =>
  le_trans (countP_active_map_step_le s.jobs r b rfl) (hs r b)

theorem single_active_complete {s : EngineState} (hs : SingleActive s)
    (jobId : Nat) (parent : Option Nat) (st : VersionStats) :
    SingleActive (complete s jobId parent st) := by
  unfold complete
  split
  · exact hs
  · split
    · exact fun r b =>
        le_trans (countP_active_map_step_le s.jobs r b rfl) (hs r b)
    · exact hs

theorem single_active_set_seen {t : EngineState} (ht : SingleActive t)
    (repo branch observed : String) :
    SingleActive (setSeenState t repo branch observed) := ht

theorem single_active_watch {s : EngineState} (hs : SingleActive s)
    (repo branch observed : String) (frozen : Bool) :
    SingleActive (watchCycle s repo branch observed frozen) := by
  unfold watchCycle
  apply single_active_set_seen
  by_cases hc : lookupSeen s.branch_seen (repo, branch) ≠ some observed ∧
      frozen = false
  · rw [if_pos hc]
    exact single_active_enqueue_unforced hs repo branch observed
  · rw [if_neg hc]
    exact hs

/-- A state holding exactly one Building job, used to instantiate theorems at
a concrete input. -/
def demoBuilding : EngineState :=
  ⟨[⟨0, "octo/widgets", "main", "c1", .building, none⟩], [], [], 1, 0⟩

/-- C1 counterexample: the single-active-build invariant does not hold at any
time over the modelled operations: starting from the empty state, an unforced
enqueue followed by a forced enqueue of the same branch leaves two active jobs
for (octo/widgets, main). -/
theorem C1_counterexample :
    activeCount (runOps emptyState
        [.opEnqueue "octo/widgets" "main" "c1" false,
         .opEnqueue "octo/widgets" "main" "c2" true])
      "octo/widgets" "main" = 2 ∧
    ¬ SingleActive (runOps emptyState
        [.opEnqueue "octo/widgets" "main" "c1" false,
         .opEnqueue "octo/widgets" "main" "c2" true]) := by
  have h2 : activeCount (runOps emptyState
      [.opEnqueue "octo/widgets" "main" "c1" false,
       .opEnqueue "octo/widgets" "main" "c2" true])
      "octo/widgets" "main" = 2 := by decide
  refine ⟨h2, fun h => ?_⟩
  have := h "octo/widgets" "main"
  rw [h2] at this
  omega

/-- C1 (amended): provided every enqueue is unforced, each engine operation
preserves the invariant that at most one job per (repository, branch) is
Pending or Building; and an unforced enqueue for a branch that already has an
active Building job returns AlreadyBuilding and leaves the jobs table
unchanged. -/
theorem C1_single_active (s : EngineState) (op : Op) (hs : SingleActive s)
    (hop : op.unforced) :
    SingleActive (applyOp s op) ∧
    ∀ repo branch commit,
      (∃ j ∈ s.jobs, j.repo = repo ∧ j.branch = branch ∧
        j.status = .building) →
      enqueue s repo branch commit false = (.alreadyBuilding, s) := by
  constructor
  · cases op with
    | opEnqueue r b c f =>
      have hf : f = false := hop
      subst hf
      exact single_active_enqueue_unforced hs r b c
    | opStart j => exact single_active_start hs j
    | opComplete j p st => exact single_active_complete hs j p st
    | opFail j r => exact single_active_fail hs j r
    | opWatch r b o f => exact single_active_watch hs r b o f
  · intro repo branch commit hex
    obtain ⟨j, hj, h1, h2, h3⟩ := hex
    apply enqueue_of_active
    unfold hasActiveJob
    rw [List.any_eq_true]
    refine ⟨j, hj, ?_⟩
    simp [activePred, h1, h2, h3, JobStatus.isActive]

/-- Witness for C1: in the concrete state with one Building job on
(octo/widgets, main), an unforced enqueue of that branch returns
AlreadyBuilding and leaves the state unchanged. -/
theorem C1_single_active_witness :
    enqueue demoBuilding "octo/widgets" "main" "c9" false =
      (.alreadyBuilding, demoBuilding) := by
  have hs : SingleActive demoBuilding := fun r b =>
    countP_singleton_le_one (activePred r b) _
  exact (C1_single_active demoBuilding (.opStart 0) hs trivial).2
    "octo/widgets" "main" "c9"
    ⟨⟨0, "octo/widgets", "main", "c1", .building, none⟩,
      List.mem_singleton_self _, rfl, rfl, rfl⟩

theorem stepJob_terminal_fix {jobId : Nat} {src tgt : JobStatus}
    {err : Option String} (hsrc : src.isActive = true) (j : Job)
    (hterm : j.status.isTerminal = true) :
    stepJob jobId src tgt err j = j := by
  unfold stepJob
  rw [if_neg]
  rintro ⟨-, h2⟩
  rw [h2] at hterm
  cases src <;> simp_all [JobStatus.isActive, JobStatus.isTerminal]

/-- C7: every job status is one of Pending, Building, Completed, Failed (the
CHECK constraint of the jobs table), and a job row whose status is terminal
(Completed or Failed) is preserved unchanged by every engine operation. -/
theorem C7_status_terminal :
    (∀ st : JobStatus, st = .pending ∨ st = .building ∨ st = .completed ∨
      st = .failed) ∧
    ∀ (s : EngineState) (op : Op) (j : Job), j ∈ s.jobs →
      j.status.isTerminal = true → j ∈ (applyOp s op).jobs := by
  constructor
  · intro st
    cases st
    · exact Or.inl rfl
    · exact Or.inr (Or.inl rfl)
    · exact Or.inr (Or.inr (Or.inl rfl))
    · exact Or.inr (Or.inr (Or.inr rfl))
  · intro s op j hj hterm
    cases op with
    | opEnqueue r b c f =>
      show j ∈ ((enqueue s r b c f).2).jobs
      unfold enqueue
      split
      · exact hj
      · exact List.mem_append_left _ hj
    | opStart jid =>
      show j ∈ s.jobs.map (stepJob jid .pending .building none)
      rw [← @stepJob_terminal_fix jid JobStatus.pending JobStatus.building
        none rfl j hterm]
      exact List.mem_map_of_mem _ hj
    | opComplete jid p st =>
      show j ∈ (complete s jid p st).jobs
      unfold complete
      split
      · exact hj
      · split
        · show j ∈ s.jobs.map (stepJob jid .building .completed none)
          rw [← @stepJob_terminal_fix jid JobStatus.building
            JobStatus.completed none rfl j hterm]
          exact List.mem_map_of_mem _ hj
        · exact hj
    | opFail jid r =>
      show j ∈ s.jobs.map (stepJob jid .building .failed (some r))
      rw [← @stepJob_terminal_fix jid JobStatus.building JobStatus.failed
        (some r) rfl j hterm]
      exact List.mem_map_of_mem _ hj
    | opWatch r b o f =>
      show j ∈ ((if lookupSeen s.branch_seen (r, b) ≠ some o ∧ f = false then
          (enqueue s r b o false).2 else s)).jobs
      split
      · show j ∈ ((enqueue s r b o false).2).jobs
        unfold enqueue
        split
        · exact hj
        · exact List.mem_append_left _ hj
      · exact hj

/-- A state holding exactly one Completed job, used to instantiate theorems at
a concrete input. -/
def demoCompleted : EngineState :=
  ⟨[⟨0, "octo/widgets", "main", "c1", .completed, none⟩], [], [], 1, 0⟩

/-- Witness for C7: the concrete Completed job row survives a fail operation
unchanged. -/
theorem C7_status_terminal_witness :
    (⟨0, "octo/widgets", "main", "c1", .completed, none⟩ : Job) ∈
      (applyOp demoCompleted (.opFail 0 "boom")).jobs :=
  (C7_status_terminal).2 demoCompleted (.opFail 0 "boom")
    ⟨0, "octo/widgets", "main", "c1", .completed, none⟩
    (List.mem_singleton_self _) rfl

/-- C6: fail on a Building job transitions exactly that row to Failed with the
given reason, writes no DocpackVersion, leaves the branch state and id
counters untouched, and leaves every other job row unchanged. -/
theorem C6_fail_discards (s : EngineState) (jobId : Nat) (reason : String)
    (j : Job) (hj : j ∈ s.jobs) (hb : j.status = .building)
    (hid : j.jid = jobId) :
    (fail s jobId reason).versions = s.versions ∧
    (fail s jobId reason).branch_seen = s.branch_seen ∧
    (fail s jobId reason).nextJobId = s.nextJobId ∧
    (fail s jobId reason).nextVersionId = s.nextVersionId ∧
    ({ j with status := .failed, error_message := some reason } : Job) ∈
      (fail s jobId reason).jobs ∧
    ∀ k ∈ s.jobs, k.jid ≠ jobId → k ∈ (fail s jobId reason).jobs := by
  refine ⟨rfl, rfl, rfl, rfl, ?_, ?_⟩
  · have hstep : stepJob jobId .building .failed (some reason) j =
        { j with status := .failed, error_message := some reason } := by
      unfold stepJob
      rw [if_pos ⟨hid, hb⟩]
    rw [← hstep]
    exact List.mem_map_of_mem _ hj
  · intro k hk hne
    have hstep : stepJob jobId .building .failed (some reason) k = k := by
      unfold stepJob
      rw [if_neg]
      rintro ⟨h1, -⟩
      exact hne h1
    rw [← hstep]
    exact List.mem_map_of_mem _ hk

/-- Witness for C6: failing the concrete Building job writes no version and
moves that row to Failed with the reason recorded. -/
theorem C6_fail_discards_witness :
    (fail demoBuilding 0 "extraction failed").versions = [] ∧
    (⟨0, "octo/widgets", "main", "c1", .failed,
        some "extraction failed"⟩ : Job) ∈
      (fail demoBuilding 0 "extraction failed").jobs := by
  have h := C6_fail_discards demoBuilding 0 "extraction failed"
    ⟨0, "octo/widgets", "main", "c1", .building, none⟩
    (List.mem_singleton_self _) rfl rfl
  exact ⟨h.1, h.2.2.2.2.1⟩

theorem lookupSeen_setSeen (l : List ((String × String) × String))
    (key : String × String) (c : String) :
    lookupSeen (setSeen l key c) key = some c := by
  induction l with
  | nil => simp [setSeen, lookupSeen]
  | cons kv rest ih =>
    obtain ⟨k, v⟩ := kv
    by_cases h : k = key
    · simp [setSeen, h, lookupSeen]
    · simp [setSeen, h, lookupSeen, ih]

/-- C5: after a Branch Watcher evaluation cycle that observes commit observed
for a tracked (repository, branch), last_seen_commit for that branch equals
the observed commit, regardless of whether a build was triggered; and when the
lineage is frozen the cycle enqueues no job, the jobs table being unchanged. -/
theorem C5_watch_advances (s : EngineState) (repo branch observed : String)
    (frozen : Bool) :
    lookupSeen (watchCycle s repo branch observed frozen).branch_seen
      (repo, branch) = some observed ∧
    (frozen = true →
      (watchCycle s repo branch observed frozen).jobs = s.jobs) := by
  constructor
  · exact lookupSeen_setSeen _ _ _
  · intro hf
    subst hf
    unfold watchCycle
    rw [if_neg]
    · rfl
    · rintro ⟨-, h2⟩
      exact absurd h2 (by decide)

/-- Witness for C5: with a frozen lineage and a previously unseen commit, the
cycle enqueues nothing yet advances last_seen_commit to the observed commit. -/
theorem C5_watch_advances_witness :
    lookupSeen (watchCycle emptyState "octo/widgets" "main" "c2"
        true).branch_seen ("octo/widgets", "main") = some "c2" ∧
    (watchCycle emptyState "octo/widgets" "main" "c2" true).jobs =
      emptyState.jobs := by
  have h := C5_watch_advances emptyState "octo/widgets" "main" "c2" true
  exact ⟨h.1, h.2 rfl⟩

/-! ## Lineage and Version Store (spec section 4.5;
docpacks.parent_docpack_id of src/supabase-migrations) -/

/-- One version record of a lineage: its id, its parent pointer (the
docpacks.parent_docpack_id column), and the source commit. -/
structure VersionRec where
  vid : Nat
  parent_version_id : Option Nat
  commit : String
deriving DecidableEq

/-- Modelled from the spec: the Lineage Store of one (repository, branch),
the chronological list of version records plus the next fresh id (the store
implementation is not under the provided sources; the schema only declares
the parent_docpack_id column). -/
structure Lineage where
  versions : List VersionRec
  nextVid : Nat
deriving DecidableEq

/-- The id of the last record, or p when the list is empty. -/
def lastId : Option Nat → List VersionRec → Option Nat
  | p, [] => p
  | _, v :: vs => lastId (some v.vid) vs

/-- Modelled from the spec: head(repo, branch), the current lineage head. -/
def Lineage.head (l : Lineage) : Option Nat := lastId none l.versions

/-- Modelled from the spec: append rejects any parent assignment that is not
the current lineage head and otherwise appends one immutable version record
carrying a fresh id. -/
def Lineage.append (l : Lineage) (parent : Option Nat) (commit : String) :
    Option (Nat × Lineage) :=
  if parent = l.head then
    some (l.nextVid,
      ⟨l.versions ++ [⟨l.nextVid, parent, commit⟩], l.nextVid + 1⟩)
  else none

/-- Chain check: the first record has parent p and each later record has the
previous record as parent. -/
def chainFromB : Option Nat → List VersionRec → Bool
  | _, [] => true
  | p, v :: vs =>
    decide (v.parent_version_id = p) && chainFromB (some v.vid) vs

/-- Well-formedness of a lineage: its records form a chain rooted at none,
every id is below the next fresh id, and every parent id is below the id of
its child. -/
def Lineage.WF (l : Lineage) : Prop :=
  chainFromB none l.versions = true ∧
  (l.versions.all fun v => decide (v.vid < l.nextVid)) = true ∧
  (l.versions.all fun v =>
    match v.parent_version_id with
    | none => true
    | some q => decide (q < v.vid)) = true

theorem chainFromB_append {p : Option Nat} {vs : List VersionRec}
    (h : chainFromB p vs = true) (v : VersionRec) :
    chainFromB p (vs ++ [v]) = true ↔ v.parent_version_id = lastId p vs := by
  induction vs generalizing p with
  | nil =>
    simp [chainFromB, lastId]
  | cons u vs ih =>
    simp only [chainFromB, Bool.and_eq_true, decide_eq_true_eq] at h
    simp only [List.cons_append, chainFromB, Bool.and_eq_true,
      decide_eq_true_eq, lastId]
    constructor
    · rintro ⟨-, h2⟩
      exact (ih h.2).mp h2
    · intro hv
      exact ⟨h.1, (ih h.2).mpr hv⟩

theorem lastId_eq_some {p : Option Nat} {vs : List VersionRec} {q : Nat}
    (h : lastId p vs = some q) : p = some q ∨ ∃ v ∈ vs, v.vid = q := by
  induction vs generalizing p with
  | nil => exact Or.inl h
  | cons u vs ih =>
    rcases ih h with h1 | h2
    · exact Or.inr ⟨u, List.mem_cons_self u vs, Option.some_inj.mp h1⟩
    · obtain ⟨v, hv, hq⟩ := h2
      exact Or.inr ⟨v, List.mem_cons_of_mem u hv, hq⟩

theorem chainFromB_parent_none {p : Option Nat} {vs : List VersionRec}
    (h : chainFromB p vs = true) (i : Nat) (hi : i < vs.length) :
    (vs.get ⟨i, hi⟩).parent_version_id = none ↔ (i = 0 ∧ p = none) := by
  induction vs generalizing p i with
  | nil => exact absurd hi (by simp)
  | cons u vs ih =>
    simp only [chainFromB, Bool.and_eq_true, decide_eq_true_eq] at h
    cases i with
    | zero =>
      show u.parent_version_id = none ↔ (0 = 0 ∧ p = none)
      rw [h.1]
      simp [eq_comm]
    | succ n =>
      have hn : n < vs.length := Nat.lt_of_succ_lt_succ (by simpa using hi)
      show (vs.get ⟨n, hn⟩).parent_version_id = none ↔ (n + 1 = 0 ∧ p = none)
      rw [ih h.2 n hn]
      constructor
      · rintro ⟨-, h2⟩
        exact absurd h2 (by simp)
      · rintro ⟨h1, -⟩
        exact absurd h1 (by simp)

theorem chainFromB_link {p : Option Nat} {vs : List VersionRec}
    (h : chainFromB p vs = true) (i : Nat) (h1 : i < vs.length)
    (h2 : i + 1 < vs.length) :
    (vs.get ⟨i + 1, h2⟩).parent_version_id = some (vs.get ⟨i, h1⟩).vid := by
  induction vs generalizing p i with
  | nil => exact absurd h1 (by simp)
  | cons u vs ih =>
    simp only [chainFromB, Bool.and_eq_true, decide_eq_true_eq] at h
    cases i with
    | zero =>
      have hlen : 0 < vs.length := Nat.lt_of_succ_lt_succ (by simpa using h2)
      show (vs.get ⟨0, hlen⟩).parent_version_id = some u.vid
      cases vs with
      | nil => exact absurd hlen (by simp)
      | cons w ws =>
        simp only [chainFromB, Bool.and_eq_true, decide_eq_true_eq] at h
        exact h.2.1
    | succ n =>
      have hn1 : n < vs.length := Nat.lt_of_succ_lt_succ (by simpa using h1)
      have hn2 : n + 1 < vs.length :=
        Nat.lt_of_succ_lt_succ (by simpa using h2)
      show (vs.get ⟨n + 1, hn2⟩).parent_version_id =
        some (vs.get ⟨n, hn1⟩).vid
      exact ih h.2 n hn1 hn2

theorem wf_parent_lt {l : Lineage} (hl : l.WF) :
    ∀ v ∈ l.versions, ∀ q, v.parent_version_id = some q → q < v.vid := by
  intro v hv q hq
  have := List.all_eq_true.mp hl.2.2 v hv
  rw [hq] at this
  exact decide_eq_true_eq.mp this

theorem parent_lt_of_head {l : Lineage} (hl : l.WF) {q : Nat}
    (hh : l.head = some q) : q < l.nextVid := by
  rcases lastId_eq_some hh with h0 | ⟨v2, hv2, hq⟩
  · exact absurd h0 (by simp)
  · have hb := List.all_eq_true.mp hl.2.1 v2 hv2
    rw [decide_eq_true_eq] at hb
    omega

theorem all_plt_append {l : Lineage} (hl : l.WF) (parent : Option Nat)
    (hp : parent = l.head) (commit : String) :
    ((l.versions ++ [(⟨l.nextVid, parent, commit⟩ : VersionRec)]).all
      fun v => match v.parent_version_id with
        | none => true
        | some q => decide (q < v.vid)) = true := by
  rw [List.all_eq_true]
  intro v hv
  rcases List.mem_append.mp hv with h | h
  · exact List.all_eq_true.mp hl.2.2 v h
  · have hveq : v = ⟨l.nextVid, parent, commit⟩ := List.mem_singleton.mp h
    subst hveq
    cases parent with
    | none => rfl
    | some q =>
      show decide (q < l.nextVid) = true
      rw [decide_eq_true_eq]
      exact parent_lt_of_head hl hp.symm

/-- C4: the version graph of one (repository, branch) lineage is a simple
chain: append succeeds exactly when the declared parent is the current lineage
head; on success the lineage stays well formed, each parent id is strictly
below its child id (so no self or ancestor cycles exist), the parent pointer
is null exactly for the first version, and the parent of each later version
is the immediately preceding version. -/
theorem C4_lineage_chain (l : Lineage) (hl : l.WF) (parent : Option Nat)
    (commit : String) :
    (l.append parent commit = none ↔ parent ≠ l.head) ∧
    (∀ vid l2, l.append parent commit = some (vid, l2) →
      l2.WF ∧ vid = l.nextVid ∧
      (∀ v ∈ l2.versions, ∀ q, v.parent_version_id = some q → q < v.vid) ∧
      (∀ v ∈ l2.versions, v.parent_version_id ≠ some v.vid) ∧
      (∀ i (hi : i < l2.versions.length),
        ((l2.versions.get ⟨i, hi⟩).parent_version_id = none ↔ i = 0)) ∧
      (∀ i (h1 : i < l2.versions.length) (h2 : i + 1 < l2.versions.length),
        (l2.versions.get ⟨i + 1, h2⟩).parent_version_id =
          some (l2.versions.get ⟨i, h1⟩).vid)) := by
  by_cases hp : parent = l.head
  · constructor
    · rw [Lineage.append, if_pos hp]
      constructor
      · intro h
        exact absurd h (by simp)
      · intro h
        exact absurd hp h
    · intro vid l2 heq
      rw [Lineage.append, if_pos hp] at heq
      have hinj := Option.some_inj.mp heq
      have hvid : vid = l.nextVid := (congrArg Prod.fst hinj).symm
      have hl2 : l2 = ⟨l.versions ++ [⟨l.nextVid, parent, commit⟩],
          l.nextVid + 1⟩ := (congrArg Prod.snd hinj).symm
      subst hvid
      subst hl2
      have hchain2 : chainFromB none
          (l.versions ++ [⟨l.nextVid, parent, commit⟩]) = true :=
        (chainFromB_append hl.1 _).mpr hp
      have hbound : ((l.versions ++
          [(⟨l.nextVid, parent, commit⟩ : VersionRec)]).all
          fun v => decide (v.vid < l.nextVid + 1)) = true := by
        rw [List.all_eq_true]
        intro v hv
        rw [decide_eq_true_eq]
        rcases List.mem_append.mp hv with h | h
        · have hb := List.all_eq_true.mp hl.2.1 v h
          rw [decide_eq_true_eq] at hb
          omega
        · have hveq : v = ⟨l.nextVid, parent, commit⟩ :=
            List.mem_singleton.mp h
          subst hveq
          show l.nextVid < l.nextVid + 1
          omega
      have hplt : ((l.versions ++
          [(⟨l.nextVid, parent, commit⟩ : VersionRec)]).all
          fun v => match v.parent_version_id with
            | none => true
            | some q => decide (q < v.vid)) = true :=
        all_plt_append hl parent hp commit
      have hWF2 : Lineage.WF ⟨l.versions ++ [⟨l.nextVid, parent, commit⟩],
          l.nextVid + 1⟩ := ⟨hchain2, hbound, hplt⟩
      refine ⟨hWF2, rfl, wf_parent_lt hWF2, ?_, ?_, ?_⟩
      · intro v hv hcontra
        have := wf_parent_lt hWF2 v hv v.vid hcontra
        omega
      · intro i hi
        rw [chainFromB_parent_none hWF2.1 i hi]
        simp
      · intro i h1 h2
        exact chainFromB_link hWF2.1 i h1 h2
  · constructor
    · rw [Lineage.append, if_neg hp]
      simp [hp]
    · intro vid l2 heq
      rw [Lineage.append, if_neg hp] at heq
      exact absurd heq (by simp)

/-- The empty lineage, used to instantiate theorems at a concrete input. -/
def emptyLineage : Lineage := ⟨[], 0⟩

/-- Witness for C4: the empty lineage is well formed; appending with declared
parent none succeeds there (none is the current head), and produces the well
formed one-element chain. -/
theorem C4_lineage_chain_witness :
    Lineage.WF emptyLineage ∧
    (emptyLineage.append none "c0" = none ↔ none ≠ emptyLineage.head) ∧
    Lineage.WF ⟨[⟨0, none, "c0"⟩], 1⟩ := by
  have hwf : Lineage.WF emptyLineage := ⟨rfl, rfl, rfl⟩
  have h := C4_lineage_chain emptyLineage hwf none "c0"
  exact ⟨hwf, h.1, (h.2 0 ⟨[⟨0, none, "c0"⟩], 1⟩ (by decide)).1⟩

/-! ## Build Log Stream (spec section 4.6; job_logs table) -/

/-- A row of the job_logs table: columns id, job_id, timestamp, level and
message (created_at mirrors timestamp and plays no role in the claims). -/
structure JobLogRow where
  rid : Nat
  job_id : Nat
  timestamp : Nat
  level : String
  message : String
deriving DecidableEq

/-- Whether a list of log rows is ordered by the timestamp column, the only
per-job ordering the persisted record provides (the table index is on
(job_id, timestamp)). -/
def tsOrdered : List JobLogRow → Bool
  | [] => true
  | [_] => true
  | a :: b :: rest =>
    decide (a.timestamp ≤ b.timestamp) && tsOrdered (b :: rest)

/-- Whether timestamps strictly increase along the list. -/
def tsStrictMono : List JobLogRow → Bool
  | [] => true
  | [_] => true
  | a :: b :: rest =>
    decide (a.timestamp < b.timestamp) && tsStrictMono (b :: rest)

/-- Modelled from the spec: the backlog replay delivered to a new subscriber,
a bounded suffix of the entries appended before subscription (the subscribe
implementation is not under the provided sources). -/
def backlogReplay (past : List JobLogRow) (bound : Nat) : List JobLogRow :=
  past.drop (past.length - bound)

/-- Modelled from the spec: the stream one subscriber receives, the bounded
backlog replay followed by the live entries appended after subscription. -/
def subscribeStream (past future : List JobLogRow) (bound : Nat) :
    List JobLogRow :=
  backlogReplay past bound ++ future

theorem tsOrdered_of_strict :
    ∀ l, tsStrictMono l = true → tsOrdered l = true
  | [], _ => rfl
  | [_], _ => rfl
  | a :: b :: rest, h => by
    simp only [tsStrictMono, Bool.and_eq_true, decide_eq_true_eq] at h
    simp only [tsOrdered, Bool.and_eq_true, decide_eq_true_eq]
    exact ⟨Nat.le_of_lt h.1, tsOrdered_of_strict (b :: rest) h.2⟩

theorem tsOrdered_drop :
    ∀ (l : List JobLogRow) (n : Nat),
      tsOrdered l = true → tsOrdered (l.drop n) = true
  | _, 0, h => h
  | [], _ + 1, _ => rfl
  | [a], n + 1, _ => by
    show tsOrdered (List.drop n []) = true
    rw [List.drop_nil]
    rfl
  | _ :: b :: rest, n + 1, h => by
    simp only [tsOrdered, Bool.and_eq_true] at h
    exact tsOrdered_drop (b :: rest) n h.2

/-- C8 counterexample: the persisted job_logs record carries no sequence
number; two distinct rows of the same job may share a timestamp, and then both
interleavings are fully ordered under the persisted (job_id, timestamp) key,
so the record does not determine one per-job append order common to all
subscribers. -/
theorem C8_counterexample :
    (⟨1, 7, 5, "info", "clone"⟩ : JobLogRow) ≠
      (⟨2, 7, 5, "info", "extract"⟩ : JobLogRow) ∧
    tsOrdered [⟨1, 7, 5, "info", "clone"⟩, ⟨2, 7, 5, "info", "extract"⟩] =
      true ∧
    tsOrdered [⟨2, 7, 5, "info", "extract"⟩, ⟨1, 7, 5, "info", "clone"⟩] =
      true := by
  decide

/-- C8 (amended): each log entry carries a timestamp rather than a sequence
number; a subscriber receives the bounded backlog replay (at most bound
entries of the per-job log at subscription time) followed by the live
entries, the whole stream being a contiguous suffix of the append-order log;
and whenever the per-job timestamps strictly increase, the delivered stream
is ordered by timestamp. -/
theorem C8_log_stream (past future : List JobLogRow) (bound : Nat) :
    subscribeStream past future bound =
      (past ++ future).drop (past.length - bound) ∧
    (backlogReplay past bound).length ≤ bound ∧
    (tsStrictMono (past ++ future) = true →
      tsOrdered (subscribeStream past future bound) = true) := by
  have hsub : past.length - bound ≤ past.length := Nat.sub_le _ _
  have heq : subscribeStream past future bound =
      (past ++ future).drop (past.length - bound) := by
    unfold subscribeStream backlogReplay
    rw [List.drop_append_of_le_length hsub]
  refine ⟨heq, ?_, ?_⟩
  · show (past.drop (past.length - bound)).length ≤ bound
    rw [List.length_drop]
    omega
  · intro hmono
    rw [heq]
    exact tsOrdered_drop _ _ (tsOrdered_of_strict _ hmono)

/-- Witness for C8: a concrete two-entry job log with strictly increasing
timestamps is delivered in order by the subscriber stream. -/
theorem C8_log_stream_witness :
    tsStrictMono ([(⟨1, 7, 1, "info", "clone"⟩ : JobLogRow)] ++
      [(⟨2, 7, 2, "info", "extract"⟩ : JobLogRow)]) = true ∧
    tsOrdered (subscribeStream [⟨1, 7, 1, "info", "clone"⟩]
      [⟨2, 7, 2, "info", "extract"⟩] 1) = true := by
  have h := C8_log_stream [⟨1, 7, 1, "info", "clone"⟩]
    [⟨2, 7, 2, "info", "extract"⟩] 1
  exact ⟨by decide, h.2.2 (by decide)⟩

/-! ## Docpack visibility (docpacks.public and the RLS SELECT policies of
src/supabase-schema.sql) -/

/-- A row of the jobs table reduced to the columns the docpack RLS policies
read: id and user_id. -/
structure JobRow where
  id : Nat
  user_id : Nat
deriving DecidableEq

/-- A docpack row reduced to the columns visibility depends on: id, the
owning job, and the public flag (docpacks.public BOOLEAN DEFAULT FALSE). -/
structure DocpackRow where
  id : Nat
  job_id : Nat
  name : String
  public : Bool
deriving DecidableEq

/-- The schema default of docpacks.public: FALSE. -/
def docpackPublicDefault : Bool := false

/-- Insertion of a docpack row: when no explicit public value is supplied the
column takes its schema default FALSE. -/
def mkDocpackRow (id job_id : Nat) (name : String)
    (explicitPublic : Option Bool) : DocpackRow :=
  ⟨id, job_id, name, explicitPublic.getD docpackPublicDefault⟩

/-- Whether the given user owns the docpack through its job, as in the policy
that users can view their own docpacks (EXISTS over jobs with
jobs.user_id = auth.uid()). -/
def ownsDocpack (jobs : List JobRow) (uid : Nat) (d : DocpackRow) : Bool :=
  jobs.any fun j => j.id == d.job_id && j.user_id == uid

/-- The disjunction of the two RLS SELECT policies on docpacks: public
docpacks are viewable by everyone, and users can view their own docpacks. -/
def canSelectDocpack (jobs : List JobRow) (uid : Nat) (d : DocpackRow) :
    Bool :=
  d.public || ownsDocpack jobs uid d

/-- C9: a docpack created without an explicitly supplied visibility value has
public = FALSE (private by default), and under the RLS SELECT policies a
non-owner can read a docpack row only when public = TRUE. -/
theorem C9_private_default (id job_id : Nat) (name : String)
    (jobs : List JobRow) (uid : Nat) (d : DocpackRow)
    (hread : canSelectDocpack jobs uid d = true)
    (hown : ownsDocpack jobs uid d = false) :
    (mkDocpackRow id job_id name none).public = false ∧ d.public = true := by
  constructor
  · rfl
  · rcases Bool.eq_false_or_eq_true d.public with h | h
    · exact h
    · unfold canSelectDocpack at hread
      rw [h, hown] at hread
      exact absurd hread (by decide)

/-- Witness for C9: a docpack created with the default flag, and a concrete
non-owner read of a public docpack. -/
theorem C9_private_default_witness :
    canSelectDocpack [⟨3, 42⟩] 7 ⟨0, 3, "octo/widgets docs", true⟩ = true ∧
    ownsDocpack [⟨3, 42⟩] 7 ⟨0, 3, "octo/widgets docs", true⟩ = false ∧
    ((mkDocpackRow 0 3 "octo/widgets docs" none).public = false ∧
      (⟨0, 3, "octo/widgets docs", true⟩ : DocpackRow).public = true) := by
  refine ⟨by decide, by decide, ?_⟩
  exact C9_private_default 0 3 "octo/widgets docs" [⟨3, 42⟩] 7
    ⟨0, 3, "octo/widgets docs", true⟩ (by decide) (by decide)

/-! ## Symbol edits (symbol_edits table of src/schema_add_symbol_edits.sql,
UNIQUE(docpack_id, user_id, symbol_id)) -/

/-- A row of the symbol_edits table: the identifying triple plus the editable
fields (signature, kind, summary, description, parameters, returns, example,
notes). -/
structure SymbolEdit where
  docpack_id : Nat
  user_id : Nat
  symbol_id : String
  signature : Option String
  kind : Option String
  summary : Option String
  description : Option String
  parameters : List String
  returns : Option String
  «example» : Option String
  notes : List String
deriving DecidableEq

/-- The key triple of an edit row, the UNIQUE constraint columns. -/
def tripleOf (e : SymbolEdit) : Nat × Nat × String :=
  (e.docpack_id, e.user_id, e.symbol_id)

/-- Modelled from the spec: saving an edit upserts on the key triple — when a
row with the same (docpack_id, user_id, symbol_id) exists it is replaced,
otherwise one row is inserted (the save endpoint is not under the provided
sources; the schema enforces the UNIQUE constraint). -/
def saveEdit (tbl : List SymbolEdit) (e : SymbolEdit) : List SymbolEdit :=
  if tbl.any fun x => decide (tripleOf x = tripleOf e) then
    tbl.map fun x => if tripleOf x = tripleOf e then e else x
  else tbl ++ [e]

/-- Modelled from the spec: reverting deletes the row of the key triple. -/
def revertEdit (tbl : List SymbolEdit) (t : Nat × Nat × String) :
    List SymbolEdit :=
  tbl.filter fun x => decide (tripleOf x ≠ t)

/-- An operation on the symbol_edits table. -/
inductive EditOp
  | save (e : SymbolEdit)
  | revert (t : Nat × Nat × String)
deriving DecidableEq

/-- Application of one edit operation. -/
def applyEditOp (tbl : List SymbolEdit) : EditOp → List SymbolEdit
  | .save e => saveEdit tbl e
  | .revert t => revertEdit tbl t

/-- Sequential execution of edit operations. -/
def runEdits (tbl : List SymbolEdit) : List EditOp → List SymbolEdit
  | [] => tbl
  | op :: ops => runEdits (applyEditOp tbl op) ops

/-- The number of rows of the table holding the key triple t. -/
def countTriple (tbl : List SymbolEdit) (t : Nat × Nat × String) : Nat :=
  tbl.countP fun x => decide (tripleOf x = t)

/-- The UNIQUE(docpack_id, user_id, symbol_id) invariant: at most one row per
key triple. -/
def UniqueTriples (tbl : List SymbolEdit) : Prop :=
  ∀ t, countTriple tbl t ≤ 1

theorem saveEdit_of_mem {tbl : List SymbolEdit} {e : SymbolEdit}
    (h : (tbl.any fun x => decide (tripleOf x = tripleOf e)) = true) :
    saveEdit tbl e =
      tbl.map fun x => if tripleOf x = tripleOf e then e else x := by
  unfold saveEdit
  rw [h]
  rfl

theorem saveEdit_of_not_mem {tbl : List SymbolEdit} {e : SymbolEdit}
    (h : (tbl.any fun x => decide (tripleOf x = tripleOf e)) = false) :
    saveEdit tbl e = tbl ++ [e] := by
  unfold saveEdit
  rw [h]
  rfl

theorem countTriple_saveEdit_map (tbl : List SymbolEdit) (e : SymbolEdit)
    (t : Nat × Nat × String) :
    countTriple (tbl.map fun x => if tripleOf x = tripleOf e then e else x)
      t = countTriple tbl t := by
  unfold countTriple
  rw [List.countP_map]
  apply List.countP_congr
  intro x hx
  show (decide (tripleOf (if tripleOf x = tripleOf e then e else x) = t) =
      true) ↔ (decide (tripleOf x = t) = true)
  by_cases hc : tripleOf x = tripleOf e
  · rw [if_pos hc, hc]
  · rw [if_neg hc]

theorem uniqueTriples_saveEdit {tbl : List SymbolEdit}
    (h : UniqueTriples tbl) (e : SymbolEdit) :
    UniqueTriples (saveEdit tbl e) := by
  intro t
  cases hex : tbl.any fun x => decide (tripleOf x = tripleOf e)
  · rw [saveEdit_of_not_mem hex]
    unfold countTriple
    rw [List.countP_append]
    by_cases ht : t = tripleOf e
    · rw [ht]
      have h0 : (tbl.countP fun x => decide (tripleOf x = tripleOf e)) = 0 := by
        rw [List.countP_eq_zero]
        intro a ha
        exact List.any_eq_false.mp hex a ha
      have h1 : (([e] : List SymbolEdit).countP
          fun x => decide (tripleOf x = tripleOf e)) ≤ 1 :=
        countP_singleton_le_one _ _
      omega
    · have h1 : (([e] : List SymbolEdit).countP
          fun x => decide (tripleOf x = t)) = 0 := by
        rw [List.countP_eq_zero]
        intro a ha
        rw [List.mem_singleton.mp ha]
        intro hc
        rw [decide_eq_true_eq] at hc
        exact ht hc.symm
      have h2 := h t
      unfold countTriple at h2
      omega
  · rw [saveEdit_of_mem hex, countTriple_saveEdit_map]
    exact h t

theorem countTriple_saveEdit_self {tbl : List SymbolEdit}
    (h : UniqueTriples tbl) (e : SymbolEdit) :
    countTriple (saveEdit tbl e) (tripleOf e) = 1 := by
  cases hex : tbl.any fun x => decide (tripleOf x = tripleOf e)
  · rw [saveEdit_of_not_mem hex]
    unfold countTriple
    rw [List.countP_append]
    have h0 : (tbl.countP fun x => decide (tripleOf x = tripleOf e)) = 0 := by
      rw [List.countP_eq_zero]
      intro a ha
      exact List.any_eq_false.mp hex a ha
    have h1 : (([e] : List SymbolEdit).countP
        fun x => decide (tripleOf x = tripleOf e)) = 1 := by
      simp
    rw [h0, h1]
  · rw [saveEdit_of_mem hex, countTriple_saveEdit_map]
    have hpos : 0 < countTriple tbl (tripleOf e) := by
      unfold countTriple
      rw [List.countP_pos_iff]
      exact List.any_eq_true.mp hex
    have h2 := h (tripleOf e)
    omega

theorem uniqueTriples_revert {tbl : List SymbolEdit} (h : UniqueTriples tbl)
    (t0 : Nat × Nat × String) : UniqueTriples (revertEdit tbl t0) := by
  intro t
  show ((tbl.filter fun x => decide (tripleOf x ≠ t0)).countP
      fun x => decide (tripleOf x = t)) ≤ 1
  exact le_trans (List.Sublist.countP_le _ (List.filter_sublist tbl)) (h t)

theorem uniqueTriples_runEdits {tbl : List SymbolEdit}
    (h : UniqueTriples tbl) (ops : List EditOp) :
    UniqueTriples (runEdits tbl ops) := by
  induction ops generalizing tbl with
  | nil => exact h
  | cons op ops ih =>
    show UniqueTriples (runEdits (applyEditOp tbl op) ops)
    apply ih
    cases op with
    | save e => exact uniqueTriples_saveEdit h e
    | revert t => exact uniqueTriples_revert h t

/-- C10: under every sequence of save and revert operations the symbol_edits
table keeps at most one row per (docpack_id, user_id, symbol_id) triple, and
saving an edit leaves exactly one row for its triple — the second save for a
triple replaces the first rather than adding another row. -/
theorem C10_unique_edits (tbl : List SymbolEdit) (ops : List EditOp)
    (h : UniqueTriples tbl) :
    UniqueTriples (runEdits tbl ops) ∧
    ∀ e, countTriple (saveEdit tbl e) (tripleOf e) = 1 :=
  ⟨uniqueTriples_runEdits h ops, fun e => countTriple_saveEdit_self h e⟩

/-- A concrete symbol edit row, used to instantiate theorems. -/
def sampleEdit : SymbolEdit :=
  ⟨1, 2, "example::parse", none, none, some "Edited summary.", none, [],
    none, none, []⟩

/-- Witness for C10: saving the concrete edit twice starting from the empty
table leaves exactly one row for its key triple. -/
theorem C10_unique_edits_witness :
    countTriple (saveEdit (runEdits [] [.save sampleEdit]) sampleEdit)
      (tripleOf sampleEdit) = 1 := by
  have h0 : UniqueTriples ([] : List SymbolEdit) := fun t => Nat.zero_le _
  have h1 : UniqueTriples (runEdits [] [.save sampleEdit]) :=
    (C10_unique_edits [] [.save sampleEdit] h0).1
  exact (C10_unique_edits (runEdits [] [.save sampleEdit]) [] h1).2 sampleEdit

end Doctown
